import Mathlib

set_option maxHeartbeats 1000000

/-!
Verification development for the nginx log analyzer core
(parse → aggregate → rank pipeline of `log_analyzer.py`).

Numeric model: Python floats are modelled as exact rationals (ℚ);
`round(x, 3)` is modelled as decimal rounding to 3 digits with ties to even,
the uniform mode mandated by the specification.
Character classes of the regular expression are modelled over ASCII.
-/

/-- ASCII model of the regex class `\s` (Python whitespace). -/
def pySpace (c : Char) : Bool :=
  c == ' ' || c == '\t' || c == '\n' || c == '\r' || c == '\x0b' || c == '\x0c'

/-- Regex class `\S`. -/
def pyNonSpace (c : Char) : Bool := !(pySpace c)

/-- ASCII model of the regex class `\d`. -/
def pyDigit (c : Char) : Bool := c.isDigit

/-- Regex `.`: any character except newline (DOTALL is off in the source). -/
def pyDot (c : Char) : Bool := !(c == '\n')

/-- Regex class `[\d\.]` used for the `remote_addr` group. -/
def digitOrDot (c : Char) : Bool := c.isDigit || c == '.'

/-- One token of the log-line pattern.  Every quantifier in the source
pattern ranges over a single-character class, so the pattern is a flat
sequence of literals, greedy / lazy single-class quantifiers and
capture-group delimiters. -/
inductive Tok where
  | lit (p : Char → Bool)
  | starG (p : Char → Bool)
  | starL (p : Char → Bool)
  | plusG (p : Char → Bool)
  | openG (n : Nat)
  | closeG (n : Nat)

/-- Captures: a list of (group id, start position, end position). -/
abbrev Caps := List (Nat × Nat × Nat)

/-- Length of the maximal run of characters satisfying `p` starting at `i`. -/
def runLen (s : List Char) (p : Char → Bool) (i : Nat) : Nat :=
  ((s.drop i).takeWhile p).length

/-- Record the end position of the most recent open of group `n`. -/
def closeCap (n i : Nat) : Caps → Caps
  | [] => []
  | (m, a, b) :: t => if m = n then (m, a, i) :: t else (m, a, b) :: closeCap n i t

/-- Backtracking matcher for a token sequence, mirroring `re.match`
semantics: anchored at the start, unanchored at the end, greedy
quantifiers try longest first, lazy quantifiers shortest first, and the
leftmost successful path decides the captures.  `fuel` only drives the
recursion; one unit is spent per token, so `toks.length + 1` always
suffices. -/
def mrun (s : List Char) : Nat → List Tok → Nat → Caps → Option Caps
  | 0, _, _, _ => none
  | _ + 1, [], _, caps => some caps
  | fuel + 1, Tok.lit p :: rest, i, caps =>
    match s[i]? with
    | some c => if p c then mrun s fuel rest (i + 1) caps else none
    | none => none
  | fuel + 1, Tok.starG p :: rest, i, caps =>
    ((List.range (runLen s p i + 1)).reverse).findSome? fun j => mrun s fuel rest (i + j) caps
  | fuel + 1, Tok.starL p :: rest, i, caps =>
    (List.range (runLen s p i + 1)).findSome? fun j => mrun s fuel rest (i + j) caps
  | fuel + 1, Tok.plusG p :: rest, i, caps =>
    ((List.range (runLen s p i)).reverse).findSome? fun j => mrun s fuel rest (i + j + 1) caps
  | fuel + 1, Tok.openG n :: rest, i, caps => mrun s fuel rest i ((n, i, i) :: caps)
  | fuel + 1, Tok.closeG n :: rest, i, caps => mrun s fuel rest i (closeCap n i caps)

/-- Group numbers of the named groups, in order of appearance. -/
def remoteAddrG : Nat := 1
def requestUrlG : Nat := 6
def requestTimeG : Nat := 15

/-- The `log_pattern` of `parse_lines`, token by token:
`(?P<remote_addr>[\d\.]+)\s (?P<remote_user>\S*)\s+ (?P<http_x_real_ip>\S*)\s`
`\[(?P<time_local>.*?)\]\s "(?P<request_method>.*?)\s(?P<request_url>.*?)\s(?P<request_protocol>.*?)"\s`
`(?P<status>\d+)\s (?P<body_bytes_sent>\S*)\s` then five quoted lazy groups
`"(...)"\s` and finally `(?P<request_time>\d+\.\d+)\s*`. -/
def log_pattern : List Tok :=
  [Tok.openG 1, Tok.plusG digitOrDot, Tok.closeG 1, Tok.lit pySpace,
   Tok.openG 2, Tok.starG pyNonSpace, Tok.closeG 2, Tok.plusG pySpace,
   Tok.openG 3, Tok.starG pyNonSpace, Tok.closeG 3, Tok.lit pySpace,
   Tok.lit (· == '['), Tok.openG 4, Tok.starL pyDot, Tok.closeG 4,
   Tok.lit (· == ']'), Tok.lit pySpace,
   Tok.lit (· == '"'),
   Tok.openG 5, Tok.starL pyDot, Tok.closeG 5, Tok.lit pySpace,
   Tok.openG 6, Tok.starL pyDot, Tok.closeG 6, Tok.lit pySpace,
   Tok.openG 7, Tok.starL pyDot, Tok.closeG 7,
   Tok.lit (· == '"'), Tok.lit pySpace,
   Tok.openG 8, Tok.plusG pyDigit, Tok.closeG 8, Tok.lit pySpace,
   Tok.openG 9, Tok.starG pyNonSpace, Tok.closeG 9, Tok.lit pySpace,
   Tok.lit (· == '"'), Tok.openG 10, Tok.starL pyDot, Tok.closeG 10,
   Tok.lit (· == '"'), Tok.lit pySpace,
   Tok.lit (· == '"'), Tok.openG 11, Tok.starL pyDot, Tok.closeG 11,
   Tok.lit (· == '"'), Tok.lit pySpace,
   Tok.lit (· == '"'), Tok.openG 12, Tok.starL pyDot, Tok.closeG 12,
   Tok.lit (· == '"'), Tok.lit pySpace,
   Tok.lit (· == '"'), Tok.openG 13, Tok.starL pyDot, Tok.closeG 13,
   Tok.lit (· == '"'), Tok.lit pySpace,
   Tok.lit (· == '"'), Tok.openG 14, Tok.starL pyDot, Tok.closeG 14,
   Tok.lit (· == '"'), Tok.lit pySpace,
   Tok.openG 15, Tok.plusG pyDigit, Tok.lit (· == '.'), Tok.plusG pyDigit, Tok.closeG 15,
   Tok.starG pySpace]

/-- `log_pattern.match(line)`: `some` captures on success, `none` when the
line is unmatched. -/
def matchLine (line : String) : Option Caps :=
  mrun line.data (log_pattern.length + 1) log_pattern 0 []

/-- The string captured by group `n` of a matched line
(`match.groupdict()[name]`). -/
def captured (line : String) (n : Nat) : Option String :=
  (matchLine line).bind fun caps =>
    (caps.find? fun c => c.1 == n).map fun c =>
      ((line.data.drop c.2.1).take (c.2.2 - c.2.1)).asString

/-- Decides whether a character list has the shape `\d+\.\d+`
(digits, one dot, digits - the strict request-time format). -/
def isFixedFloat (cs : List Char) : Bool :=
  match cs.dropWhile pyDigit with
  | c :: rest => c == '.' && !(cs.takeWhile pyDigit).isEmpty && !rest.isEmpty && rest.all pyDigit
  | [] => false

/-- Terminal errors of `parse_lines`: `ValueError('Log file is empty.')`
and `RuntimeError('Too many missed lines. Aborted.')`. -/
inductive ParseError where
  | emptyInput
  | tooManyUnmatchedLines
deriving DecidableEq

/-- `is_too_many_missed_lines(missed, total, limit_perc)`:
`(missed / total) * 100 >= limit_perc`, with float division modelled
exactly over ℚ. -/
def is_too_many_missed_lines (missed total : Nat) (limit_perc : ℚ) : Bool :=
  decide (limit_perc ≤ (missed : ℚ) / (total : ℚ) * 100)

/-- Number of lines of the stream that the pattern does not match
(the `missed_count` counter). -/
def missedOf (lines : List String) : Nat :=
  (lines.filter fun l => (matchLine l).isNone).length

/-- Drained semantics of the `parse_lines` generator: the records of all
matched lines in order, unless after exhaustion the stream turns out to be
empty, or the missed-lines check (invoked with its default limit 30, as at
the call site in the source) fires. -/
def parse_lines (lines : List String) : Except ParseError (List Caps) :=
  if lines.length = 0 then Except.error ParseError.emptyInput
  else if is_too_many_missed_lines (missedOf lines) lines.length 30 then
    Except.error ParseError.tooManyUnmatchedLines
  else Except.ok (lines.filterMap matchLine)

/-- Decimal rounding of `x` to an integer, ties to even. -/
def roundHalfEven (x : ℚ) : ℤ :=
  let n := ⌊x⌋
  let r := x - n
  if r < 1 / 2 then n
  else if 1 / 2 < r then n + 1
  else if n % 2 = 0 then n else n + 1

/-- Model of `round(x, 3)`: round to 3 decimal digits, ties to even. -/
def round3 (x : ℚ) : ℚ := (roundHalfEven (x * 1000) : ℚ) / 1000

/-- `calc_median(numbers)` from the source: sort, take the middle element
for odd length, the mean of the two middle elements for even length. -/
def calc_median (numbers : List ℚ) : ℚ :=
  let sorted_nums := numbers.insertionSort (· ≤ ·)
  let nums_count := sorted_nums.length
  if nums_count % 2 = 1 then sorted_nums.getD (nums_count / 2) 0
  else (sorted_nums.getD (nums_count / 2 - 1) 0 + sorted_nums.getD (nums_count / 2) 0) / 2

/-- A `TimeSampleSet`: the insertion-ordered `url -> samples` mapping
built by the aggregator (a Python dict preserves insertion order). -/
abbrev TimeSampleSet := List (String × List ℚ)

/-- First loop of `analyze_requests`: total sample count over all URLs. -/
def total_count (tm : TimeSampleSet) : Nat :=
  (tm.map fun p => p.2.length).sum

/-- First loop of `analyze_requests`: total time over all URLs. -/
def total_time (tm : TimeSampleSet) : ℚ :=
  (tm.map fun p => p.2.sum).sum

/-- Python `max(times)` on a non-empty list (0 on the unreachable empty case). -/
def listMax : List ℚ → ℚ
  | [] => 0
  | x :: xs => xs.foldl max x

/-- One `UrlStats` record. -/
structure UrlStat where
  url : String
  count : Nat
  count_perc : ℚ
  time_sum : ℚ
  time_perc : ℚ
  time_avg : ℚ
  time_max : ℚ
  time_med : ℚ
deriving DecidableEq

/-- `analyze_requests(times_map)`: one record per key, with the six
floating-point fields rounded to 3 decimal digits. -/
def analyze_requests (tm : TimeSampleSet) : List UrlStat :=
  tm.map fun p =>
    { url := p.1
      count := p.2.length
      count_perc := round3 (100 * (p.2.length : ℚ) / (total_count tm : ℚ))
      time_sum := round3 p.2.sum
      time_perc := round3 (100 * p.2.sum / total_time tm)
      time_avg := round3 (p.2.sum / (p.2.length : ℚ))
      time_max := round3 (listMax p.2)
      time_med := round3 (calc_median p.2) }

/-- Descending comparison on `time_sum`; on ties Python's stable
`list.sort(key=..., reverse=True)` keeps the original order, which for
insertion sort is exactly insertion before equal keys. -/
def rankLE (a b : UrlStat) : Prop := b.time_sum ≤ a.time_sum

instance : DecidableRel rankLE :=
  fun a b => inferInstanceAs (Decidable (b.time_sum ≤ a.time_sum))

instance : IsTotal UrlStat rankLE := ⟨fun a b => le_total b.time_sum a.time_sum⟩

instance : IsTrans UrlStat rankLE := ⟨fun _ _ _ h₁ h₂ => le_trans h₂ h₁⟩

/-- `sort_requests_by_time_sum`: stable sort by `time_sum` descending. -/
def sort_requests_by_time_sum (rs : List UrlStat) : List UrlStat :=
  rs.insertionSort rankLE

/-- The slice `sorted_requests[:REPORT_SIZE]` taken in `main`. -/
def main_slice (rs : List UrlStat) (report_size : Nat) : List UrlStat :=
  (sort_requests_by_time_sum rs).take report_size

/-- Specification-side order: `time_sum` strictly greater first, ties by
original position.  On index-tagged records this is a total order whose
sort characterises the stable descending sort uniquely. -/
def rankLEIdx (a b : Nat × UrlStat) : Prop :=
  b.2.time_sum < a.2.time_sum ∨ (a.2.time_sum = b.2.time_sum ∧ a.1 ≤ b.1)

instance : DecidableRel rankLEIdx :=
  fun a b =>
    inferInstanceAs (Decidable (b.2.time_sum < a.2.time_sum ∨
      (a.2.time_sum = b.2.time_sum ∧ a.1 ≤ b.1)))

/-- Tag each element with its position, starting at `n`. -/
def tagFrom : Nat → List UrlStat → List (Nat × UrlStat)
  | _, [] => []
  | n, x :: xs => (n, x) :: tagFrom (n + 1) xs

/-- Specification-side ranking: sort the position-tagged records by
(time_sum descending, original position ascending) and forget the tags. -/
def specRank (rs : List UrlStat) : List UrlStat :=
  ((tagFrom 0 rs).insertionSort rankLEIdx).map Prod.snd

/-- One nondeterministic matching path of a token sequence over `s`: from
position `i` with captures `caps` to position `j` with captures `caps'`.
`mrun` returns the captures of one such path (the leftmost one). -/
inductive M (s : List Char) : List Tok → Nat → Caps → Nat → Caps → Prop where
  | nil (i : Nat) (caps : Caps) : M s [] i caps i caps
  | lit {p : Char → Bool} {rest i caps j caps'} {c : Char} :
      s[i]? = some c → p c = true →
      M s rest (i + 1) caps j caps' → M s (Tok.lit p :: rest) i caps j caps'
  | starG {p : Char → Bool} {rest i caps j caps' k} : k ≤ runLen s p i →
      M s rest (i + k) caps j caps' → M s (Tok.starG p :: rest) i caps j caps'
  | starL {p : Char → Bool} {rest i caps j caps' k} : k ≤ runLen s p i →
      M s rest (i + k) caps j caps' → M s (Tok.starL p :: rest) i caps j caps'
  | plusG {p : Char → Bool} {rest i caps j caps' k} : 1 ≤ k → k ≤ runLen s p i →
      M s rest (i + k) caps j caps' → M s (Tok.plusG p :: rest) i caps j caps'
  | openG {n rest i caps j caps'} : M s rest i ((n, i, i) :: caps) j caps' →
      M s (Tok.openG n :: rest) i caps j caps'
  | closeG {n rest i caps j caps'} : M s rest i (closeCap n i caps) j caps' →
      M s (Tok.closeG n :: rest) i caps j caps'

/-- Does a token open or close group `n`? -/
def touches (n : Nat) : Tok → Bool
  | Tok.openG m => m == n
  | Tok.closeG m => m == n
  | _ => false

/-- A well-formed log line (single-character fields, request time `0.5`). -/
def lineOk : String := "1 u x [t] \"G / H\" 2 1 \"q\" \"w\" \"e\" \"r\" \"y\" 0.5"

/-- Same line but with trailing field `1.5e3` (scientific notation). -/
def lineSci : String := "1 u x [t] \"G / H\" 2 1 \"q\" \"w\" \"e\" \"r\" \"y\" 1.5e3"

/-- Same line but with two consecutive spaces inside the quoted request
section, so the lazy `request_url` group captures the empty string. -/
def lineEmptyUrl : String := "1 u x [t] \"G  H\" 2 1 \"q\" \"w\" \"e\" \"r\" \"y\" 0.5"

/-- A stream of five lines of which exactly two are unmatched (40%). -/
def linesForty : List String := [lineOk, lineOk, lineOk, "x", "x"]

/-- The `TimeSampleSet` of the source's own unit test. -/
def tmTest : TimeSampleSet := [("/api/v1/test", [1, 1, 1])]

/-- A five-record list with a tie on `time_sum` (only `url` and `time_sum`
matter to the ranker). -/
def mkStat (u : String) (ts : ℚ) : UrlStat :=
  { url := u, count := 0, count_perc := 0, time_sum := ts, time_perc := 0,
    time_avg := 0, time_max := 0, time_med := 0 }

def rsTest : List UrlStat :=
  [mkStat "a" 5, mkStat "b" 3, mkStat "c" 3, mkStat "d" 9, mkStat "e" 1]

/-! ### Helper lemmas about runs, takes and `findSome?` -/

theorem takeWhile_get_of_lt {p : Char → Bool} :
    ∀ (u : List Char) (x : Nat), x < (u.takeWhile p).length →
      ∃ c, u[x]? = some c ∧ p c = true := by
  intro u
  induction u with
  | nil => intro x hx; simp [List.takeWhile] at hx
  | cons c u' ih =>
    intro x hx
    by_cases hp : p c
    · cases x with
      | zero => exact ⟨c, by simp, hp⟩
      | succ x' =>
        simp only [List.takeWhile_cons, hp, if_true, List.length_cons,
          Nat.succ_lt_succ_iff] at hx
        simpa using ih x' hx
    · simp [List.takeWhile_cons, hp] at hx

theorem le_takeWhile_length {p : Char → Bool} :
    ∀ (u : List Char) (k : Nat),
      (∀ x, x < k → ∃ c, u[x]? = some c ∧ p c = true) →
      k ≤ (u.takeWhile p).length := by
  intro u
  induction u with
  | nil =>
    intro k hk
    cases k with
    | zero => exact Nat.zero_le _
    | succ k' => obtain ⟨c, hc, _⟩ := hk 0 (Nat.succ_pos _); simp at hc
  | cons c u' ih =>
    intro k hk
    cases k with
    | zero => exact Nat.zero_le _
    | succ k' =>
      obtain ⟨c₀, hc₀, hp₀⟩ := hk 0 (Nat.succ_pos _)
      simp only [List.getElem?_cons_zero, Option.some.injEq] at hc₀
      subst hc₀
      have : (u'.takeWhile p).length ≥ k' := by
        apply ih
        intro x hx
        simpa using hk (x + 1) (Nat.succ_lt_succ hx)
      simp only [List.takeWhile_cons, hp₀, if_true, List.length_cons]
      omega

theorem runLen_get {s : List Char} {p : Char → Bool} {i x : Nat}
    (h : x < runLen s p i) : ∃ c, s[i + x]? = some c ∧ p c = true := by
  obtain ⟨c, hc, hp⟩ := takeWhile_get_of_lt (s.drop i) x h
  exact ⟨c, by rw [← List.getElem?_drop s i x]; exact hc, hp⟩

theorem le_runLen {s : List Char} {p : Char → Bool} {i k : Nat}
    (h : ∀ x, x < k → ∃ c, s[i + x]? = some c ∧ p c = true) :
    k ≤ runLen s p i := by
  apply le_takeWhile_length
  intro x hx
  obtain ⟨c, hc, hp⟩ := h x hx
  exact ⟨c, by rw [List.getElem?_drop s i x]; exact hc, hp⟩

theorem getElem?_append_of_some {s t : List Char} {n : Nat} {c : Char}
    (h : s[n]? = some c) : (s ++ t)[n]? = some c := by
  have hn : n < s.length := (List.getElem?_eq_some.mp h).1
  rw [List.getElem?_append_left hn]
  exact h

theorem runLen_append {s t : List Char} {p : Char → Bool} {i : Nat} :
    runLen s p i ≤ runLen (s ++ t) p i := by
  apply le_runLen
  intro x hx
  obtain ⟨c, hc, hp⟩ := runLen_get hx
  exact ⟨c, getElem?_append_of_some hc, hp⟩

theorem take_len_all {p : Char → Bool} :
    ∀ (u : List Char) (k : Nat),
      (∀ x, x < k → ∃ c, u[x]? = some c ∧ p c = true) →
      (u.take k).length = k ∧ (u.take k).all p = true := by
  intro u
  induction u with
  | nil =>
    intro k hk
    cases k with
    | zero => simp
    | succ k' => obtain ⟨c, hc, _⟩ := hk 0 (Nat.succ_pos _); simp at hc
  | cons c u' ih =>
    intro k hk
    cases k with
    | zero => simp
    | succ k' =>
      obtain ⟨c₀, hc₀, hp₀⟩ := hk 0 (Nat.succ_pos _)
      simp only [List.getElem?_cons_zero, Option.some.injEq] at hc₀
      subst hc₀
      have ih' := ih k' (fun x hx => by simpa using hk (x + 1) (Nat.succ_lt_succ hx))
      simp only [List.take_succ_cons, List.length_cons, List.all_cons, hp₀,
        Bool.true_and, ih'.1, ih'.2, and_self]

theorem runLen_take {s : List Char} {p : Char → Bool} {i k : Nat}
    (h : k ≤ runLen s p i) :
    ((s.drop i).take k).length = k ∧ ((s.drop i).take k).all p = true := by
  apply take_len_all
  intro x hx
  obtain ⟨c, hc, hp⟩ := runLen_get (Nat.lt_of_lt_of_le hx h)
  exact ⟨c, by rw [List.getElem?_drop s i x]; exact hc, hp⟩

theorem findSome?_eq_some_ex {α β : Type} {l : List α} {f : α → Option β} {b : β}
    (h : l.findSome? f = some b) : ∃ a, a ∈ l ∧ f a = some b := by
  induction l with
  | nil => simp [List.findSome?] at h
  | cons a l ih =>
    rw [List.findSome?_cons] at h
    cases hfa : f a with
    | some c =>
      rw [hfa] at h
      exact ⟨a, List.mem_cons_self a l, hfa.trans h⟩
    | none =>
      rw [hfa] at h
      obtain ⟨a', ha', hfa'⟩ := ih h
      exact ⟨a', List.mem_cons_of_mem a ha', hfa'⟩

theorem findSome?_isSome_of_mem {α β : Type} {l : List α} {f : α → Option β} {a : α} {b : β}
    (ha : a ∈ l) (hfa : f a = some b) : (l.findSome? f).isSome = true := by
  induction l with
  | nil => simp at ha
  | cons x l ih =>
    rw [List.findSome?_cons]
    cases hfx : f x with
    | some c => simp
    | none =>
      rcases List.mem_cons.mp ha with h | h
      · subst h; rw [hfx] at hfa; simp at hfa
      · exact ih h

/-! ### A relational view of the matcher -/

theorem mrun_lit_some {s : List Char} {fuel : Nat} {p : Char → Bool}
    {rest : List Tok} {i : Nat} {caps : Caps} {c : Char} (hs : s[i]? = some c) :
    mrun s (fuel + 1) (Tok.lit p :: rest) i caps =
      if p c = true then mrun s fuel rest (i + 1) caps else none := by
  simp [mrun, hs]

theorem mrun_lit_none {s : List Char} {fuel : Nat} {p : Char → Bool}
    {rest : List Tok} {i : Nat} {caps : Caps} (hs : s[i]? = none) :
    mrun s (fuel + 1) (Tok.lit p :: rest) i caps = none := by
  simp [mrun, hs]

theorem mrun_sound {s : List Char} :
    ∀ (toks : List Tok) (i : Nat) (caps r : Caps),
      mrun s (toks.length + 1) toks i caps = some r → ∃ j, M s toks i caps j r := by
  intro toks
  induction toks with
  | nil =>
    intro i caps r h
    simp only [mrun, List.length_nil, Option.some.injEq] at h
    subst h
    exact ⟨i, M.nil i caps⟩
  | cons tok rest ih =>
    intro i caps r h
    cases tok with
    | lit p =>
      cases hs : s[i]? with
      | none => rw [List.length_cons, mrun_lit_none hs] at h; simp at h
      | some c =>
        rw [List.length_cons, mrun_lit_some hs] at h
        by_cases hp : p c
        · rw [if_pos hp] at h
          obtain ⟨j, m⟩ := ih (i + 1) caps r h
          exact ⟨j, M.lit hs hp m⟩
        · rw [if_neg hp] at h; simp at h
    | starG p =>
      simp only [mrun, List.length_cons] at h
      obtain ⟨j', hmem, happ⟩ := findSome?_eq_some_ex h
      have hj' : j' ≤ runLen s p i := by
        rw [List.mem_reverse, List.mem_range] at hmem; omega
      obtain ⟨j, m⟩ := ih (i + j') caps r happ
      exact ⟨j, M.starG hj' m⟩
    | starL p =>
      simp only [mrun, List.length_cons] at h
      obtain ⟨j', hmem, happ⟩ := findSome?_eq_some_ex h
      have hj' : j' ≤ runLen s p i := by
        rw [List.mem_range] at hmem; omega
      obtain ⟨j, m⟩ := ih (i + j') caps r happ
      exact ⟨j, M.starL hj' m⟩
    | plusG p =>
      simp only [mrun, List.length_cons] at h
      obtain ⟨j', hmem, happ⟩ := findSome?_eq_some_ex h
      rw [List.mem_reverse, List.mem_range] at hmem
      obtain ⟨j, m⟩ := ih (i + j' + 1) caps r happ
      refine ⟨j, M.plusG (k := j' + 1) (Nat.succ_pos _) (by omega) ?_⟩
      simpa [Nat.add_assoc] using m
    | openG n =>
      simp only [mrun, List.length_cons] at h
      obtain ⟨j, m⟩ := ih i ((n, i, i) :: caps) r h
      exact ⟨j, M.openG m⟩
    | closeG n =>
      simp only [mrun, List.length_cons] at h
      obtain ⟨j, m⟩ := ih i (closeCap n i caps) r h
      exact ⟨j, M.closeG m⟩

theorem M_append {s : List Char} {t₂ : List Tok} :
    ∀ {t₁ : List Tok} {i : Nat} {caps : Caps} {j : Nat} {r : Caps},
      M s (t₁ ++ t₂) i caps j r →
      ∃ m c', M s t₁ i caps m c' ∧ M s t₂ m c' j r := by
  intro t₁
  induction t₁ with
  | nil =>
    intro i caps j r h
    exact ⟨i, caps, M.nil i caps, h⟩
  | cons tok t₁' ih =>
    intro i caps j r h
    cases h with
    | lit hs hp m =>
      obtain ⟨m', c', h₁, h₂⟩ := ih m
      exact ⟨m', c', M.lit hs hp h₁, h₂⟩
    | starG hk m =>
      obtain ⟨m', c', h₁, h₂⟩ := ih m
      exact ⟨m', c', M.starG hk h₁, h₂⟩
    | starL hk m =>
      obtain ⟨m', c', h₁, h₂⟩ := ih m
      exact ⟨m', c', M.starL hk h₁, h₂⟩
    | plusG h1 hk m =>
      obtain ⟨m', c', h₁, h₂⟩ := ih m
      exact ⟨m', c', M.plusG h1 hk h₁, h₂⟩
    | openG m =>
      obtain ⟨m', c', h₁, h₂⟩ := ih m
      exact ⟨m', c', M.openG h₁, h₂⟩
    | closeG m =>
      obtain ⟨m', c', h₁, h₂⟩ := ih m
      exact ⟨m', c', M.closeG h₁, h₂⟩

theorem find?_closeCap_ne {n m i : Nat} (hmn : m ≠ n) :
    ∀ caps : Caps,
      (closeCap m i caps).find? (fun c => c.1 == n) = caps.find? (fun c => c.1 == n) := by
  intro caps
  induction caps with
  | nil => rfl
  | cons q t ihq =>
    obtain ⟨q1, qa, qb⟩ := q
    by_cases hq : q1 = m
    · subst hq
      simp only [closeCap, if_pos rfl]
      have : (q1 == n) = false := by simp [hmn]
      simp [List.find?, this]
    · simp only [closeCap, if_neg hq]
      by_cases hqn : q1 = n
      · subst hqn; simp [List.find?]
      · have : (q1 == n) = false := by simp [hqn]
        simp [List.find?, this, ihq]

theorem M_frame {s : List Char} {n : Nat} :
    ∀ {toks : List Tok} {i : Nat} {caps : Caps} {j : Nat} {caps' : Caps},
      M s toks i caps j caps' →
      (toks.all fun t => !(touches n t)) = true →
      ∀ {e : Nat × Nat × Nat}, caps.find? (fun c => c.1 == n) = some e →
        caps'.find? (fun c => c.1 == n) = some e := by
  intro toks i caps j caps' h
  induction h with
  | nil => intro _ _ he; exact he
  | lit _ _ _ ihm =>
    intro hall e he
    rw [List.all_cons, Bool.and_eq_true] at hall
    exact ihm hall.2 he
  | starG _ _ ihm =>
    intro hall e he
    rw [List.all_cons, Bool.and_eq_true] at hall
    exact ihm hall.2 he
  | starL _ _ ihm =>
    intro hall e he
    rw [List.all_cons, Bool.and_eq_true] at hall
    exact ihm hall.2 he
  | plusG _ _ _ ihm =>
    intro hall e he
    rw [List.all_cons, Bool.and_eq_true] at hall
    exact ihm hall.2 he
  | openG m ihm =>
    rename_i ng rest i' caps₀ j' caps₁
    intro hall e he
    rw [List.all_cons, Bool.and_eq_true] at hall
    have hmn : (ng == n) = false := by
      have h1 := hall.1
      simp only [touches] at h1
      cases hgn : (ng == n) with
      | false => rfl
      | true => rw [hgn] at h1; exact absurd h1 (by simp)
    apply ihm hall.2
    simp only [List.find?, hmn]
    exact he
  | closeG m ihm =>
    rename_i ng rest i' caps₀ j' caps₁
    intro hall e he
    rw [List.all_cons, Bool.and_eq_true] at hall
    have hmn : (ng == n) = false := by
      have h1 := hall.1
      simp only [touches] at h1
      cases hgn : (ng == n) with
      | false => rfl
      | true => rw [hgn] at h1; exact absurd h1 (by simp)
    apply ihm hall.2
    rw [find?_closeCap_ne (by simpa using hmn)]
    exact he

theorem mrun_append_mono {s t : List Char} :
    ∀ (toks : List Tok) (i : Nat) (caps r : Caps),
      mrun s (toks.length + 1) toks i caps = some r →
      ∃ r', mrun (s ++ t) (toks.length + 1) toks i caps = some r' := by
  intro toks
  induction toks with
  | nil => intro i caps r _; exact ⟨caps, by simp [mrun]⟩
  | cons tok rest ih =>
    intro i caps r h
    cases tok with
    | lit p =>
      cases hs : s[i]? with
      | none => rw [List.length_cons, mrun_lit_none hs] at h; simp at h
      | some c =>
        rw [List.length_cons, mrun_lit_some hs] at h
        rw [List.length_cons, mrun_lit_some (getElem?_append_of_some hs)]
        by_cases hp : p c
        · rw [if_pos hp] at h ⊢
          obtain ⟨r', h'⟩ := ih (i + 1) caps r h
          exact ⟨r', h'⟩
        · rw [if_neg hp] at h; simp at h
    | starG p =>
      simp only [mrun, List.length_cons] at h ⊢
      obtain ⟨j', hmem, happ⟩ := findSome?_eq_some_ex h
      rw [List.mem_reverse, List.mem_range] at hmem
      obtain ⟨r', h'⟩ := ih (i + j') caps r happ
      have hmem' : j' ∈ (List.range (runLen (s ++ t) p i + 1)).reverse := by
        rw [List.mem_reverse, List.mem_range]
        have := runLen_append (s := s) (t := t) (p := p) (i := i)
        omega
      have := findSome?_isSome_of_mem
        (f := fun j => mrun (s ++ t) (rest.length + 1) rest (i + j) caps) hmem' h'
      exact Option.isSome_iff_exists.mp this
    | starL p =>
      simp only [mrun, List.length_cons] at h ⊢
      obtain ⟨j', hmem, happ⟩ := findSome?_eq_some_ex h
      rw [List.mem_range] at hmem
      obtain ⟨r', h'⟩ := ih (i + j') caps r happ
      have hmem' : j' ∈ List.range (runLen (s ++ t) p i + 1) := by
        rw [List.mem_range]
        have := runLen_append (s := s) (t := t) (p := p) (i := i)
        omega
      have := findSome?_isSome_of_mem
        (f := fun j => mrun (s ++ t) (rest.length + 1) rest (i + j) caps) hmem' h'
      exact Option.isSome_iff_exists.mp this
    | plusG p =>
      simp only [mrun, List.length_cons] at h ⊢
      obtain ⟨j', hmem, happ⟩ := findSome?_eq_some_ex h
      rw [List.mem_reverse, List.mem_range] at hmem
      obtain ⟨r', h'⟩ := ih (i + j' + 1) caps r happ
      have hmem' : j' ∈ (List.range (runLen (s ++ t) p i)).reverse := by
        rw [List.mem_reverse, List.mem_range]
        have := runLen_append (s := s) (t := t) (p := p) (i := i)
        omega
      have := findSome?_isSome_of_mem
        (f := fun j => mrun (s ++ t) (rest.length + 1) rest (i + j + 1) caps) hmem' h'
      exact Option.isSome_iff_exists.mp this
    | openG n =>
      simp only [mrun, List.length_cons] at h ⊢
      exact ih i ((n, i, i) :: caps) r h
    | closeG n =>
      simp only [mrun, List.length_cons] at h ⊢
      exact ih i (closeCap n i caps) r h

/-! ### The capture groups of a matched line -/

theorem log_pattern_time_split :
    log_pattern = log_pattern.take 70 ++
      [Tok.openG 15, Tok.plusG pyDigit, Tok.lit (· == '.'), Tok.plusG pyDigit,
       Tok.closeG 15, Tok.starG pySpace] := by rfl

theorem log_pattern_url_split :
    log_pattern = log_pattern.take 23 ++
      ([Tok.openG 6, Tok.starL pyDot, Tok.closeG 6] ++ log_pattern.drop 26) := by rfl

theorem M_timeTail {s : List Char} {m : Nat} {c' : Caps} {j : Nat} {r : Caps}
    (h : M s [Tok.openG 15, Tok.plusG pyDigit, Tok.lit (· == '.'), Tok.plusG pyDigit,
              Tok.closeG 15, Tok.starG pySpace] m c' j r) :
    ∃ k1 k2, 1 ≤ k1 ∧ 1 ≤ k2 ∧
      r = (15, m, m + k1 + 1 + k2) :: c' ∧
      k1 ≤ runLen s pyDigit m ∧
      s[m + k1]? = some '.' ∧
      k2 ≤ runLen s pyDigit (m + k1 + 1) := by
  cases h with
  | openG h =>
    cases h with
    | plusG h1 hk1 h =>
      rename_i k1
      cases h with
      | lit hs hp h =>
        rename_i c
        have hc : c = '.' := by simpa using hp
        subst hc
        cases h with
        | plusG h2 hk2 h =>
          rename_i k2
          cases h with
          | closeG h =>
            cases h with
            | starG hk3 h =>
              cases h with
              | nil =>
                refine ⟨k1, k2, h1, h2, ?_, hk1, hs, hk2⟩
                simp [closeCap]

theorem M_urlGroup {s : List Char} {m : Nat} {c₁ : Caps} {j : Nat} {c₂ : Caps}
    (h : M s [Tok.openG 6, Tok.starL pyDot, Tok.closeG 6] m c₁ j c₂) :
    ∃ k, k ≤ runLen s pyDot m ∧ c₂ = (6, m, m + k) :: c₁ := by
  cases h with
  | openG h =>
    cases h with
    | starL hk h =>
      rename_i k
      cases h with
      | closeG h =>
        cases h with
        | nil =>
          exact ⟨k, hk, by simp [closeCap]⟩

theorem takeWhile_append_of_all {p : Char → Bool} :
    ∀ {l₁ l₂ : List Char}, l₁.all p = true →
      (l₁ ++ l₂).takeWhile p = l₁ ++ l₂.takeWhile p := by
  intro l₁
  induction l₁ with
  | nil => intro l₂ _; simp
  | cons c l ih =>
    intro l₂ h
    rw [List.all_cons, Bool.and_eq_true] at h
    simp only [List.cons_append, List.takeWhile_cons, h.1, if_true]
    rw [ih h.2]

theorem dropWhile_append_of_all {p : Char → Bool} :
    ∀ {l₁ l₂ : List Char}, l₁.all p = true →
      (l₁ ++ l₂).dropWhile p = l₂.dropWhile p := by
  intro l₁
  induction l₁ with
  | nil => intro l₂ _; simp
  | cons c l ih =>
    intro l₂ h
    rw [List.all_cons, Bool.and_eq_true] at h
    simp only [List.cons_append, List.dropWhile_cons, h.1, if_true]
    exact ih h.2

theorem isFixedFloat_of_span {s : List Char} {a k1 k2 : Nat}
    (h1 : 1 ≤ k1) (h2 : 1 ≤ k2)
    (hd1 : k1 ≤ runLen s pyDigit a)
    (hdot : s[a + k1]? = some '.')
    (hd2 : k2 ≤ runLen s pyDigit (a + k1 + 1)) :
    isFixedFloat ((s.drop a).take (a + k1 + 1 + k2 - a)) = true := by
  have hlen : a + k1 + 1 + k2 - a = k1 + (1 + k2) := by omega
  rw [hlen, List.take_add]
  have hdd : (s.drop a).drop k1 = s.drop (a + k1) := by
    rw [List.drop_drop]
  have hlt : a + k1 < s.length := (List.getElem?_eq_some.mp hdot).1
  have hgd : s[a + k1] = '.' := by
    have := (List.getElem?_eq_some.mp hdot).2
    exact this
  have hcons : s.drop (a + k1) = '.' :: s.drop (a + k1 + 1) := by
    rw [List.drop_eq_getElem_cons hlt, hgd]
  obtain ⟨hlen1, hall1⟩ := runLen_take (p := pyDigit) hd1
  obtain ⟨hlen2, hall2⟩ := runLen_take (p := pyDigit) hd2
  rw [hdd, hcons]
  have h1k : 1 + k2 = k2 + 1 := by omega
  rw [h1k, List.take_succ_cons]
  set d1 := (s.drop a).take k1 with hd1def
  set d2 := (s.drop (a + k1 + 1)).take k2 with hd2def
  have hne1 : d1.isEmpty = false := by
    cases hd : d1 with
    | nil => rw [hd] at hlen1; simp at hlen1; omega
    | cons x xs => simp [hd]
  have hne2 : d2.isEmpty = false := by
    cases hd : d2 with
    | nil => rw [hd] at hlen2; simp at hlen2; omega
    | cons x xs => simp [hd]
  have htw : (d1 ++ '.' :: d2).takeWhile pyDigit = d1 := by
    rw [takeWhile_append_of_all hall1]
    have : ('.' :: d2).takeWhile pyDigit = [] := by
      rw [List.takeWhile_cons]
      simp [pyDigit]
    rw [this, List.append_nil]
  have hdw : (d1 ++ '.' :: d2).dropWhile pyDigit = '.' :: d2 := by
    rw [dropWhile_append_of_all hall1]
    rw [List.dropWhile_cons]
    simp [pyDigit]
  simp only [isFixedFloat, hdw, htw]
  simp [hne1, hne2, hall2]

/-- C7 (amended): every line the parser matches yields a `request_time`
capture of the strict form `\d+\.\d+`; however, since the grammar is not
anchored at the end of the line, a line whose trailing field merely starts
with such a prefix (for instance `1.5e3`) is still matched, capturing only
that prefix, contrary to the original claim. -/
theorem c7_amended_time_shape (line : String) (caps : Caps)
    (h : matchLine line = some caps) :
    ∃ a b, caps.find? (fun c => c.1 == 15) = some (15, a, b) ∧
      isFixedFloat ((line.data.drop a).take (b - a)) = true := by
  unfold matchLine at h
  obtain ⟨j, hM⟩ := mrun_sound log_pattern 0 [] caps h
  rw [log_pattern_time_split] at hM
  obtain ⟨m, c', hpre, htail⟩ := M_append hM
  obtain ⟨k1, k2, h1, h2, hr, hk1, hdot, hk2⟩ := M_timeTail htail
  subst hr
  refine ⟨m, m + k1 + 1 + k2, ?_, ?_⟩
  · simp [List.find?]
  · exact isFixedFloat_of_span h1 h2 hk1 hdot hk2

/-- C8 (amended): every matched line carries a `request_url` capture whose
characters are all non-newline, but the captured string may be empty (the
group is a lazy `.*?`), contrary to the original non-emptiness claim. -/
theorem c8_amended_url_field (line : String) (caps : Caps)
    (h : matchLine line = some caps) :
    ∃ a b, caps.find? (fun c => c.1 == 6) = some (6, a, b) ∧
      ((line.data.drop a).take (b - a)).all pyDot = true := by
  unfold matchLine at h
  obtain ⟨j, hM⟩ := mrun_sound log_pattern 0 [] caps h
  rw [log_pattern_url_split] at hM
  obtain ⟨m, c₁, hpre, hrest⟩ := M_append hM
  obtain ⟨m₂, c₂, hmid, hpost⟩ := M_append hrest
  obtain ⟨k, hk, hc₂⟩ := M_urlGroup hmid
  subst hc₂
  have hfind : ((6, m, m + k) :: c₁).find? (fun c => c.1 == 6) = some (6, m, m + k) := by
    simp [List.find?]
  have hno : ((log_pattern.drop 26).all fun t => !(touches 6 t)) = true := by rfl
  have hcap := M_frame hpost hno hfind
  refine ⟨m, m + k, hcap, ?_⟩
  have hmk : m + k - m = k := by omega
  rw [hmk]
  exact (runLen_take hk).2

/-- C10: acceptance of the log grammar is closed under appending any
suffix: the pattern is anchored at the start of the line but not at its
end, so a matched line stays matched whatever trailing text is added. -/
theorem c10_match_closed_under_append (line suffix : String)
    (h : (matchLine line).isSome = true) :
    (matchLine (line ++ suffix)).isSome = true := by
  rw [Option.isSome_iff_exists] at h
  obtain ⟨r, hr⟩ := h
  unfold matchLine at hr ⊢
  obtain ⟨r', hr'⟩ := mrun_append_mono log_pattern 0 [] r hr
  rw [Option.isSome_iff_exists]
  refine ⟨r', ?_⟩
  rw [String.data_append]
  exact hr'

/-- C7 is false as stated: `lineSci`'s trailing request-time field is
`1.5e3`, which is not of the form `\d+\.\d+`, yet the parser does match
the line (capturing `request_time = "1.5"`), instead of classifying it as
unmatched. -/
theorem c7_counterexample :
    lineSci = "1 u x [t] \"G / H\" 2 1 \"q\" \"w\" \"e\" \"r\" \"y\"" ++ " " ++ "1.5e3" ∧
    isFixedFloat ("1.5e3".data) = false ∧
    (matchLine lineSci).isSome = true ∧
    captured lineSci 15 = some "1.5" :=
  ⟨rfl, rfl, rfl, rfl⟩

/-- C7 witness: the amended theorem applied to the matched line `lineOk`. -/
theorem c7_amended_time_shape_witness :
    ∃ a b, ((matchLine lineOk).getD []).find? (fun c => c.1 == 15) = some (15, a, b) ∧
      isFixedFloat ((lineOk.data.drop a).take (b - a)) = true :=
  c7_amended_time_shape lineOk ((matchLine lineOk).getD []) (by rfl)

/-- C8 is false as stated: `lineEmptyUrl` is matched and its
`request_url` capture is the empty string. -/
theorem c8_counterexample :
    (matchLine lineEmptyUrl).isSome = true ∧ captured lineEmptyUrl 6 = some "" :=
  ⟨rfl, rfl⟩

/-- C8 witness: the amended theorem applied to the matched line `lineOk`. -/
theorem c8_amended_url_field_witness :
    ∃ a b, ((matchLine lineOk).getD []).find? (fun c => c.1 == 6) = some (6, a, b) ∧
      ((lineOk.data.drop a).take (b - a)).all pyDot = true :=
  c8_amended_url_field lineOk ((matchLine lineOk).getD []) (by rfl)

/-- C10 witness: `lineOk` matches, and still matches with trailing text. -/
theorem c10_match_closed_under_append_witness :
    (matchLine lineOk).isSome = true ∧
    (matchLine (lineOk ++ " trailing garbage")).isSome = true :=
  ⟨rfl, c10_match_closed_under_append lineOk " trailing garbage" rfl⟩

/-! ### Rounding and statistics lemmas -/

theorem abs_roundHalfEven_sub (x : ℚ) : |(roundHalfEven x : ℚ) - x| ≤ 1 / 2 := by
  have h0 : (⌊x⌋ : ℚ) ≤ x := Int.floor_le x
  have h1 : x < ⌊x⌋ + 1 := Int.lt_floor_add_one x
  unfold roundHalfEven
  by_cases hlt : x - ⌊x⌋ < 1 / 2
  · rw [if_pos hlt, abs_le]
    constructor <;> linarith
  · rw [if_neg hlt]
    by_cases hgt : 1 / 2 < x - ⌊x⌋
    · rw [if_pos hgt, abs_le]
      push_cast
      constructor <;> linarith
    · rw [if_neg hgt]
      by_cases hpar : ⌊x⌋ % 2 = 0
      · rw [if_pos hpar, abs_le]
        constructor <;> linarith
      · rw [if_neg hpar, abs_le]
        push_cast
        constructor <;> linarith

theorem roundHalfEven_le_of_le {x : ℚ} {n : ℤ} (h : x ≤ n) : roundHalfEven x ≤ n := by
  have habs := abs_roundHalfEven_sub x
  rw [abs_le] at habs
  have h2 : (roundHalfEven x : ℚ) < ((n + 1 : ℤ) : ℚ) := by push_cast; linarith
  have h3 : roundHalfEven x < n + 1 := by exact_mod_cast h2
  omega

theorem le_roundHalfEven_of_le {n : ℤ} {x : ℚ} (h : (n : ℚ) ≤ x) : n ≤ roundHalfEven x := by
  have habs := abs_roundHalfEven_sub x
  rw [abs_le] at habs
  have h2 : ((n - 1 : ℤ) : ℚ) < (roundHalfEven x : ℚ) := by push_cast; linarith
  have h3 : n - 1 < roundHalfEven x := by exact_mod_cast h2
  omega

theorem abs_round3_sub (x : ℚ) : |round3 x - x| ≤ 1 / 2000 := by
  unfold round3
  have h := abs_roundHalfEven_sub (x * 1000)
  have heq : (roundHalfEven (x * 1000) : ℚ) / 1000 - x =
      ((roundHalfEven (x * 1000) : ℚ) - x * 1000) / 1000 := by ring
  rw [heq, abs_div, abs_of_pos (by norm_num : (0:ℚ) < 1000)]
  rw [div_le_iff₀ (by norm_num : (0:ℚ) < 1000)]
  calc |(roundHalfEven (x * 1000) : ℚ) - x * 1000| ≤ 1 / 2 := h
    _ = 1 / 2000 * 1000 := by norm_num

theorem round3_nonneg {x : ℚ} (h : 0 ≤ x) : 0 ≤ round3 x := by
  unfold round3
  have h1 : ((0 : ℤ) : ℚ) ≤ x * 1000 := by push_cast; positivity
  have h2 : (0 : ℤ) ≤ roundHalfEven (x * 1000) := le_roundHalfEven_of_le h1
  have h3 : (0 : ℚ) ≤ (roundHalfEven (x * 1000) : ℚ) := by exact_mod_cast h2
  positivity

theorem round3_le_of_le {x : ℚ} (h : x ≤ 100) : round3 x ≤ 100 := by
  unfold round3
  have h1 : x * 1000 ≤ ((100000 : ℤ) : ℚ) := by push_cast; linarith
  have h2 : roundHalfEven (x * 1000) ≤ 100000 := roundHalfEven_le_of_le h1
  have h3 : (roundHalfEven (x * 1000) : ℚ) ≤ 100000 := by exact_mod_cast h2
  linarith

theorem abs_sum_map_round3_sub (l : List ℚ) :
    |(l.map round3).sum - l.sum| ≤ (l.length : ℚ) * (1 / 2000) := by
  induction l with
  | nil => simp
  | cons x xs ih =>
    simp only [List.map_cons, List.sum_cons, List.length_cons]
    have hx := abs_round3_sub x
    calc |round3 x + (xs.map round3).sum - (x + xs.sum)|
        = |(round3 x - x) + ((xs.map round3).sum - xs.sum)| := by ring_nf
      _ ≤ |round3 x - x| + |(xs.map round3).sum - xs.sum| := abs_add _ _
      _ ≤ 1 / 2000 + (xs.length : ℚ) * (1 / 2000) := by linarith
      _ = ((xs.length : ℚ) + 1) * (1 / 2000) := by ring
      _ = (((xs.length + 1 : ℕ)) : ℚ) * (1 / 2000) := by push_cast; ring

theorem sum_map_const_mul_div {α : Type} (l : List α) (f : α → ℚ) (c d : ℚ) :
    (l.map fun a => c * f a / d).sum = c * (l.map f).sum / d := by
  induction l with
  | nil => simp
  | cons x xs ih =>
    simp only [List.map_cons, List.sum_cons, ih]
    ring

theorem total_count_cast (tm : TimeSampleSet) :
    ((total_count tm : ℕ) : ℚ) = (tm.map fun p => (p.2.length : ℚ)).sum := by
  induction tm with
  | nil => simp [total_count]
  | cons p ps ih =>
    simp only [total_count, List.map_cons, List.sum_cons] at ih ⊢
    push_cast
    rw [← ih]
    push_cast
    ring

theorem list_sum_nonneg (l : List ℚ) (h : ∀ x ∈ l, 0 ≤ x) : 0 ≤ l.sum := by
  induction l with
  | nil => simp
  | cons x xs ih =>
    simp only [List.sum_cons]
    have h1 := h x (List.mem_cons_self x xs)
    have h2 := ih fun y hy => h y (List.mem_cons_of_mem x hy)
    linarith

theorem mem_le_list_sum {l : List ℚ} (h : ∀ x ∈ l, 0 ≤ x) {a : ℚ} (ha : a ∈ l) :
    a ≤ l.sum := by
  induction l with
  | nil => simp at ha
  | cons x xs ih =>
    simp only [List.sum_cons]
    rcases List.mem_cons.mp ha with h1 | h1
    · subst h1
      have := list_sum_nonneg xs fun y hy => h y (List.mem_cons_of_mem a hy)
      linarith
    · have hx := h x (List.mem_cons_self x xs)
      have := ih (fun y hy => h y (List.mem_cons_of_mem x hy)) h1
      linarith

theorem total_count_pos (tm : TimeSampleSet) (hne : tm ≠ [])
    (hlists : ∀ p ∈ tm, p.2 ≠ ([] : List ℚ)) : (0 : ℚ) < (total_count tm : ℚ) := by
  cases tm with
  | nil => exact absurd rfl hne
  | cons p ps =>
    rw [total_count_cast]
    simp only [List.map_cons, List.sum_cons]
    have hl : p.2 ≠ [] := hlists p (List.mem_cons_self p ps)
    have h1 : 1 ≤ p.2.length := List.length_pos.mpr hl
    have h1q : (1 : ℚ) ≤ (p.2.length : ℚ) := by exact_mod_cast h1
    have h2 : 0 ≤ (ps.map fun q => (q.2.length : ℚ)).sum := by
      apply list_sum_nonneg
      intro x hx
      obtain ⟨q, _, hq⟩ := List.mem_map.mp hx
      rw [← hq]
      positivity
    linarith

/-- C1: on a non-empty `TimeSampleSet` the statistics engine emits exactly
one `UrlStats` record per URL key (in key order, and uniquely per key when
keys are distinct), whose fields are: `count` the number of samples,
`time_sum` the rounded sum, `time_avg` the rounded quotient of the exact
sum by the count, `time_max` the rounded maximum, `count_perc` the rounded
`100·count/total_count`, and `time_perc` the rounded `100·time_sum/total_time`;
every floating-point field goes through the single rounding mode `round3`
(three decimal digits, ties to even).  The positive-total-time hypothesis
restricts the statement to the domain where the source divides by a
non-zero global time (an all-zero-time set raises `ZeroDivisionError`
instead of producing records). -/
theorem c1_statistics_engine_fields (tm : TimeSampleSet)
    (hne : tm ≠ []) (hlists : ∀ p ∈ tm, p.2 ≠ ([] : List ℚ))
    (htt : 0 < total_time tm) :
    ((analyze_requests tm).map UrlStat.url = tm.map Prod.fst) ∧
    (∀ p ∈ tm, ∃ r ∈ analyze_requests tm,
      r.url = p.1 ∧
      r.count = p.2.length ∧
      r.time_sum = round3 p.2.sum ∧
      r.time_avg = round3 (p.2.sum / (p.2.length : ℚ)) ∧
      r.time_max = round3 (listMax p.2) ∧
      r.time_med = round3 (calc_median p.2) ∧
      r.count_perc = round3 (100 * (p.2.length : ℚ) / (total_count tm : ℚ)) ∧
      r.time_perc = round3 (100 * p.2.sum / total_time tm)) ∧
    ((tm.map Prod.fst).Nodup →
      ∀ r₁ ∈ analyze_requests tm, ∀ r₂ ∈ analyze_requests tm, r₁.url = r₂.url → r₁ = r₂) := by
  refine ⟨?_, ?_, ?_⟩
  · simp only [analyze_requests, List.map_map]
    rfl
  · intro p hp
    exact ⟨_, List.mem_map_of_mem _ hp, rfl, rfl, rfl, rfl, rfl, rfl, rfl, rfl⟩
  · intro hnd r₁ h₁ r₂ h₂ hurl
    simp only [analyze_requests, List.mem_map] at h₁ h₂
    obtain ⟨p₁, hp₁, he₁⟩ := h₁
    obtain ⟨p₂, hp₂, he₂⟩ := h₂
    subst he₁
    subst he₂
    have hfst : p₁.1 = p₂.1 := hurl
    have hp12 : p₁ = p₂ := List.inj_on_of_nodup_map hnd hp₁ hp₂ hfst
    rw [hp12]

/-- C1 witness: the engine applied to the unit-test sample set emits one
record keyed by the single URL. -/
theorem c1_statistics_engine_fields_witness :
    (analyze_requests tmTest).map UrlStat.url = ["/api/v1/test"] := by
  have h := (c1_statistics_engine_fields tmTest (by simp [tmTest])
    (by simp [tmTest]) (by norm_num [total_time, tmTest])).1
  simpa [tmTest] using h

/-- C2: `calc_median` computes the statistical median - against any sorted
permutation of the input it returns the middle element for odd lengths and
the mean of the two middle elements for even lengths; in particular
`[1,2,3,4,5]` yields `3` and `[1,2]` yields `1.5`. -/
theorem c2_calc_median_is_statistical_median :
    (∀ (l s : List ℚ), l ≠ [] → s.Perm l → s.Sorted (· ≤ ·) →
      calc_median l =
        if l.length % 2 = 1 then s.getD (l.length / 2) 0
        else (s.getD (l.length / 2 - 1) 0 + s.getD (l.length / 2) 0) / 2) ∧
    calc_median [1, 2, 3, 4, 5] = 3 ∧ calc_median [1, 2] = 3 / 2 := by
  refine ⟨?_, by decide, ?_⟩
  · intro l s hne hperm hsort
    have hsort' : (l.insertionSort (· ≤ ·)).Sorted (· ≤ ·) :=
      List.sorted_insertionSort _ l
    have hperm' : (l.insertionSort (· ≤ ·)).Perm l := List.perm_insertionSort _ l
    have heq : s = l.insertionSort (· ≤ ·) :=
      List.eq_of_perm_of_sorted (hperm.trans hperm'.symm) hsort hsort'
    have hlen : s.length = l.length := hperm.length_eq
    simp only [calc_median, ← heq, hlen]
  · norm_num [calc_median, List.insertionSort, List.orderedInsert]

/-- C2 witness: the theorem applied at `[3,1,2]` with sorted permutation
`[1,2,3]` gives the middle element `2`. -/
theorem c2_calc_median_is_statistical_median_witness :
    calc_median [3, 1, 2] =
      if ([3, 1, 2] : List ℚ).length % 2 = 1 then
        ([1, 2, 3] : List ℚ).getD (([3, 1, 2] : List ℚ).length / 2) 0
      else
        (([1, 2, 3] : List ℚ).getD (([3, 1, 2] : List ℚ).length / 2 - 1) 0 +
         ([1, 2, 3] : List ℚ).getD (([3, 1, 2] : List ℚ).length / 2) 0) / 2 :=
  c2_calc_median_is_statistical_median.1 [3, 1, 2] [1, 2, 3]
    (by decide) (by decide) (by decide)

/-- C6: for a non-empty `TimeSampleSet` (non-empty sample lists,
non-negative samples, positive global time), every record's `count_perc`
and `time_perc` lie in `[0,100]`, and each of the two percentage columns
sums to 100 up to the accumulated 3-decimal rounding tolerance of half an
ulp (`1/2000`) per record. -/
theorem c6_percentages_bounds_and_sum (tm : TimeSampleSet)
    (hne : tm ≠ []) (hlists : ∀ p ∈ tm, p.2 ≠ ([] : List ℚ))
    (hpos : ∀ p ∈ tm, ∀ x ∈ p.2, (0 : ℚ) ≤ x) (htt : 0 < total_time tm) :
    (∀ r ∈ analyze_requests tm,
        0 ≤ r.count_perc ∧ r.count_perc ≤ 100 ∧ 0 ≤ r.time_perc ∧ r.time_perc ≤ 100) ∧
    |((analyze_requests tm).map UrlStat.count_perc).sum - 100| ≤ (tm.length : ℚ) * (1 / 2000) ∧
    |((analyze_requests tm).map UrlStat.time_perc).sum - 100| ≤ (tm.length : ℚ) * (1 / 2000) := by
  have htc : (0 : ℚ) < (total_count tm : ℚ) := total_count_pos tm hne hlists
  refine ⟨?_, ?_, ?_⟩
  · intro r hr
    simp only [analyze_requests, List.mem_map] at hr
    obtain ⟨p, hp, he⟩ := hr
    subst he
    have hlen0 : (0 : ℚ) ≤ (p.2.length : ℚ) := by positivity
    have hlenle : (p.2.length : ℚ) ≤ (total_count tm : ℚ) := by
      rw [total_count_cast]
      apply mem_le_list_sum
      · intro x hx
        obtain ⟨q, _, hq⟩ := List.mem_map.mp hx
        rw [← hq]; positivity
      · exact List.mem_map_of_mem _ hp
    have hsum0 : (0 : ℚ) ≤ p.2.sum := list_sum_nonneg _ (hpos p hp)
    have hsumle : p.2.sum ≤ total_time tm := by
      apply mem_le_list_sum
      · intro x hx
        obtain ⟨q, hq, hqe⟩ := List.mem_map.mp hx
        rw [← hqe]
        exact list_sum_nonneg _ (hpos q hq)
      · exact List.mem_map_of_mem _ hp
    refine ⟨round3_nonneg (by positivity), round3_le_of_le ?_,
            round3_nonneg (by positivity), round3_le_of_le ?_⟩
    · rw [div_le_iff₀ htc]
      linarith
    · rw [div_le_iff₀ htt]
      linarith
  · have hmap : (analyze_requests tm).map UrlStat.count_perc =
        (tm.map fun p => 100 * (p.2.length : ℚ) / (total_count tm : ℚ)).map round3 := by
      simp only [analyze_requests, List.map_map]
      rfl
    have hsum : (tm.map fun p => 100 * (p.2.length : ℚ) / (total_count tm : ℚ)).sum = 100 := by
      rw [sum_map_const_mul_div tm (fun p => (p.2.length : ℚ)) 100 (total_count tm : ℚ)]
      rw [← total_count_cast]
      field_simp
    have h := abs_sum_map_round3_sub
      (tm.map fun p => 100 * (p.2.length : ℚ) / (total_count tm : ℚ))
    rw [hsum, List.length_map] at h
    rw [hmap]
    exact h
  · have hmap : (analyze_requests tm).map UrlStat.time_perc =
        (tm.map fun p => 100 * p.2.sum / total_time tm).map round3 := by
      simp only [analyze_requests, List.map_map]
      rfl
    have hsum : (tm.map fun p => 100 * p.2.sum / total_time tm).sum = 100 := by
      rw [sum_map_const_mul_div tm (fun p => p.2.sum) 100 (total_time tm)]
      have : (tm.map fun p => p.2.sum).sum = total_time tm := rfl
      rw [this]
      field_simp
    have h := abs_sum_map_round3_sub (tm.map fun p => 100 * p.2.sum / total_time tm)
    rw [hsum, List.length_map] at h
    rw [hmap]
    exact h

/-- C6 witness: the invariant instantiated on the unit-test sample set. -/
theorem c6_percentages_bounds_and_sum_witness :
    (∀ r ∈ analyze_requests tmTest,
        0 ≤ r.count_perc ∧ r.count_perc ≤ 100 ∧ 0 ≤ r.time_perc ∧ r.time_perc ≤ 100) ∧
    |((analyze_requests tmTest).map UrlStat.count_perc).sum - 100| ≤
      (tmTest.length : ℚ) * (1 / 2000) ∧
    |((analyze_requests tmTest).map UrlStat.time_perc).sum - 100| ≤
      (tmTest.length : ℚ) * (1 / 2000) :=
  c6_percentages_bounds_and_sum tmTest (by simp [tmTest]) (by simp [tmTest])
    (by decide) (by norm_num [total_time, tmTest])

/-! ### Line-stream processor claims -/

theorem length_ne_zero_of_ne_nil {lines : List String} (hne : lines ≠ []) :
    ¬ lines.length = 0 := by
  simpa using (List.length_pos.mpr hne).ne'

/-- C3: after draining a non-empty stream, the run fails with
`TooManyUnmatchedLines` exactly when `missed / total * 100 ≥ 30`, the
threshold applied at stream exhaustion by `parse_lines`; the boundary is
inclusive: `missed=5, total=10` at threshold 50 triggers, `missed=1,
total=10` at threshold 50 does not. -/
theorem c3_tolerance_check_inclusive_terminal (lines : List String) (hne : lines ≠ []) :
    (parse_lines lines = Except.error ParseError.tooManyUnmatchedLines ↔
      is_too_many_missed_lines (missedOf lines) lines.length 30 = true) ∧
    is_too_many_missed_lines 5 10 50 = true ∧
    is_too_many_missed_lines 1 10 50 = false := by
  refine ⟨?_, ?_, ?_⟩
  · unfold parse_lines
    rw [if_neg (length_ne_zero_of_ne_nil hne)]
    by_cases hb : is_too_many_missed_lines (missedOf lines) lines.length 30 = true
    · rw [if_pos hb]
      simp [hb]
    · rw [if_neg hb]
      simp [hb]
  · norm_num [is_too_many_missed_lines]
  · norm_num [is_too_many_missed_lines]

/-- C3 witness: the equivalence instantiated on the one-line stream `["x"]`. -/
theorem c3_tolerance_check_inclusive_terminal_witness :
    (parse_lines ["x"] = Except.error ParseError.tooManyUnmatchedLines ↔
      is_too_many_missed_lines (missedOf ["x"]) (["x"] : List String).length 30 = true) ∧
    is_too_many_missed_lines 5 10 50 = true ∧
    is_too_many_missed_lines 1 10 50 = false :=
  c3_tolerance_check_inclusive_terminal ["x"] (by simp)

/-- C4: draining the stream fails with `EmptyInput` exactly when the
stream had zero lines; a non-empty stream whose lines are all unmatched
does not raise `EmptyInput` - it falls under the tolerance check and
fails with `TooManyUnmatchedLines` instead. -/
theorem c4_empty_input_iff_zero_lines :
    (∀ lines : List String,
      parse_lines lines = Except.error ParseError.emptyInput ↔ lines = []) ∧
    (∀ lines : List String, lines ≠ [] → (∀ l ∈ lines, matchLine l = none) →
      parse_lines lines = Except.error ParseError.tooManyUnmatchedLines) := by
  constructor
  · intro lines
    constructor
    · intro h
      by_contra hne
      unfold parse_lines at h
      rw [if_neg (length_ne_zero_of_ne_nil hne)] at h
      by_cases hb : is_too_many_missed_lines (missedOf lines) lines.length 30 = true
      · rw [if_pos hb] at h
        simp at h
      · rw [if_neg hb] at h
        simp at h
    · intro h
      subst h
      rfl
  · intro lines hne hall
    unfold parse_lines
    rw [if_neg (length_ne_zero_of_ne_nil hne)]
    have hmissed : missedOf lines = lines.length := by
      unfold missedOf
      have hfil : lines.filter (fun l => (matchLine l).isNone) = lines := by
        rw [List.filter_eq_self]
        intro l hl
        simp [hall l hl]
      rw [hfil]
    have hb : is_too_many_missed_lines (missedOf lines) lines.length 30 = true := by
      rw [hmissed]
      unfold is_too_many_missed_lines
      rw [decide_eq_true_eq]
      have hlpos : (0 : ℚ) < (lines.length : ℚ) := by
        have := List.length_pos.mpr hne
        exact_mod_cast this
      rw [div_self (ne_of_gt hlpos)]
      norm_num
    rw [if_pos hb]

/-- C4 witness: the empty stream raises `EmptyInput`; the all-unmatched
one-line stream `["x"]` instead raises `TooManyUnmatchedLines`. -/
theorem c4_empty_input_iff_zero_lines_witness :
    parse_lines ([] : List String) = Except.error ParseError.emptyInput ∧
    parse_lines ["x"] = Except.error ParseError.tooManyUnmatchedLines :=
  ⟨(c4_empty_input_iff_zero_lines.1 []).mpr rfl,
   c4_empty_input_iff_zero_lines.2 ["x"] (by simp)
     (by intro l hl; rw [List.mem_singleton] at hl; subst hl; rfl)⟩

/-- C9 (amended): the tolerance percentage is a parameter of
`is_too_many_missed_lines` with default 30, but the pipeline's terminal
check always runs with that default: `parse_lines` compares the unmatched
percentage against the constant 30, and no configuration value reaches it
(the configuration supplies only `REPORT_SIZE` and path settings). -/
theorem c9_amended_hardcoded_threshold (lines : List String) (hne : lines ≠ []) :
    (parse_lines lines = Except.error ParseError.tooManyUnmatchedLines ↔
      (30 : ℚ) ≤ (missedOf lines : ℚ) / (lines.length : ℚ) * 100) := by
  unfold parse_lines
  rw [if_neg (length_ne_zero_of_ne_nil hne)]
  unfold is_too_many_missed_lines
  by_cases hb : (30 : ℚ) ≤ (missedOf lines : ℚ) / (lines.length : ℚ) * 100
  · rw [if_pos (decide_eq_true hb)]
    simp [hb]
  · rw [if_neg (by simpa using hb)]
    simp [hb]

/-- C9 witness: the amended equivalence on the one-line stream `["x"]`. -/
theorem c9_amended_hardcoded_threshold_witness :
    (parse_lines ["x"] = Except.error ParseError.tooManyUnmatchedLines ↔
      (30 : ℚ) ≤ (missedOf ["x"] : ℚ) / ((["x"] : List String).length : ℚ) * 100) :=
  c9_amended_hardcoded_threshold ["x"] (by simp)

/-- C9 is false as stated: with a configured tolerance of 50 the claim
predicts no failure at 40% unmatched, but the pipeline's terminal check
ignores the configured value and aborts (it always compares against 30). -/
theorem c9_counterexample :
    parse_lines linesForty = Except.error ParseError.tooManyUnmatchedLines ∧
    is_too_many_missed_lines (missedOf linesForty) linesForty.length 50 = false := by
  have hm : missedOf linesForty = 2 := rfl
  have hlen : linesForty.length = 5 := rfl
  constructor
  · have hb : is_too_many_missed_lines 2 5 30 = true := by
      norm_num [is_too_many_missed_lines]
    have h0 : ¬ linesForty.length = 0 := by rw [hlen]; norm_num
    unfold parse_lines
    rw [if_neg h0, hm, hlen, if_pos hb]
  · rw [hm, hlen]
    norm_num [is_too_many_missed_lines]

/-! ### Ranker claims -/

theorem tagFrom_le : ∀ (l : List UrlStat) (n : Nat) (p : Nat × UrlStat),
    p ∈ tagFrom n l → n ≤ p.1 := by
  intro l
  induction l with
  | nil => intro n p hp; simp [tagFrom] at hp
  | cons x xs ih =>
    intro n p hp
    simp only [tagFrom, List.mem_cons] at hp
    rcases hp with h | h
    · subst h; exact Nat.le_refl n
    · have := ih (n + 1) p h
      omega

theorem map_snd_orderedInsert (x : UrlStat) (i : Nat) :
    ∀ (L : List (Nat × UrlStat)), (∀ p ∈ L, i < p.1) →
      (List.orderedInsert rankLEIdx (i, x) L).map Prod.snd =
        List.orderedInsert rankLE x (L.map Prod.snd) := by
  intro L
  induction L with
  | nil => intro _; simp [List.orderedInsert]
  | cons q t ih =>
    intro hlt
    obtain ⟨j, b⟩ := q
    have hij : i < j := hlt (j, b) (List.mem_cons_self _ _)
    by_cases hr : rankLE x b
    · have hr' : rankLEIdx (i, x) (j, b) := by
        unfold rankLE at hr
        unfold rankLEIdx
        rcases lt_or_eq_of_le hr with h | h
        · exact Or.inl h
        · exact Or.inr ⟨h.symm, Nat.le_of_lt hij⟩
      rw [List.orderedInsert, if_pos hr']
      simp only [List.map_cons]
      rw [List.orderedInsert, if_pos hr]
    · have hr' : ¬ rankLEIdx (i, x) (j, b) := by
        unfold rankLE at hr
        unfold rankLEIdx
        rintro (h | ⟨h1, h2⟩)
        · exact hr (le_of_lt h)
        · exact hr (le_of_eq h1.symm)
      rw [List.orderedInsert, if_neg hr']
      simp only [List.map_cons]
      rw [List.orderedInsert, if_neg hr]
      rw [ih (fun p hp => hlt p (List.mem_cons_of_mem _ hp))]

theorem map_snd_insertionSort_tagFrom :
    ∀ (l : List UrlStat) (n : Nat),
      ((tagFrom n l).insertionSort rankLEIdx).map Prod.snd = l.insertionSort rankLE := by
  intro l
  induction l with
  | nil => intro n; simp [tagFrom]
  | cons x xs ih =>
    intro n
    show (List.orderedInsert rankLEIdx (n, x)
        ((tagFrom (n + 1) xs).insertionSort rankLEIdx)).map Prod.snd =
      List.orderedInsert rankLE x (xs.insertionSort rankLE)
    rw [map_snd_orderedInsert x n _ ?_, ih (n + 1)]
    intro p hp
    rw [List.mem_insertionSort] at hp
    have := tagFrom_le xs (n + 1) p hp
    omega

/-- C5: the ranker sorts by `time_sum` descending with stable ties (it
coincides with the sort of the position-tagged records under the linear
order "larger `time_sum` first, then smaller original position"), and the
final slice keeps the first `REPORT_SIZE` entries, returning everything
when fewer records exist. -/
theorem c5_ranker_stable_sort_truncate (rs : List UrlStat) (report_size : Nat) :
    main_slice rs report_size = (specRank rs).take report_size ∧
    (sort_requests_by_time_sum rs).Perm rs ∧
    (sort_requests_by_time_sum rs).Sorted rankLE ∧
    (rs.length ≤ report_size → main_slice rs report_size = sort_requests_by_time_sum rs) := by
  refine ⟨?_, List.perm_insertionSort _ _, List.sorted_insertionSort _ _, ?_⟩
  · unfold main_slice specRank sort_requests_by_time_sum
    rw [map_snd_insertionSort_tagFrom rs 0]
  · intro hle
    unfold main_slice
    apply List.take_of_length_le
    have hl : (sort_requests_by_time_sum rs).length = rs.length :=
      (List.perm_insertionSort rankLE rs).length_eq
    omega

/-- C5 witness: the theorem instantiated at the five-record list with
`REPORT_SIZE = 2`, and with a size larger than the list. -/
theorem c5_ranker_stable_sort_truncate_witness :
    main_slice rsTest 2 = (specRank rsTest).take 2 ∧
    main_slice rsTest 9 = sort_requests_by_time_sum rsTest :=
  ⟨(c5_ranker_stable_sort_truncate rsTest 2).1,
   (c5_ranker_stable_sort_truncate rsTest 9).2.2.2 (by decide)⟩
